import Mathlib

/-!
# ChunkSmith: verification of the marker-preserving re-chunking engine

A shallow embedding of the ChunkSmith core: the page-marker codec, the span
indexer, the chunk engine, the content addresser, the versioned session
mutator and the index router, together with the frontend utilities
(`lineStarts.ts`, `extractModelFromIndex`).

The server-side core of this repository is present only through its
documentation and its frontend callers, so the server components are
modelled from the specification (each such definition says so in its doc
comment).  The frontend utilities are translated directly from the
TypeScript sources.

Text is modelled as `List Char`; character offsets are list indices.
-/

namespace ChunkSmith

/-- Full text, page text and identifiers are sequences of characters. -/
abbrev Text := List Char

/-! ## Lines: splitting on `'\n'` and joining back -/
/-- Split a text into its lines at `'\n'`.  Always returns at least one
line; the newline characters are not part of any line. -/
def splitLines : Text → List Text
  | [] => [[]]
  | c :: cs =>
    if c = '\n' then [] :: splitLines cs
    else
      match splitLines cs with
      | [] => [[c]]
      | l :: ls => (c :: l) :: ls

/-- Join lines with `'\n'` separators (inverse of `splitLines`). -/
def joinLines : List Text → Text
  | [] => []
  | [l] => l
  | l :: ls => l ++ '\n' :: joinLines ls

/-! ## Decimal numerals for the page markers -/
/-- The decimal digit character for `d` (`d < 10`). -/
def digitChar (d : Nat) : Char :=
  match d with
  | 0 => '0' | 1 => '1' | 2 => '2' | 3 => '3' | 4 => '4'
  | 5 => '5' | 6 => '6' | 7 => '7' | 8 => '8' | _ => '9'

/-- The numeric value of a digit character. -/
def charVal (c : Char) : Nat := c.toNat - 48

/-- Is `c` one of `'0'..'9'`? -/
def isDigitChar (c : Char) : Bool := 48 ≤ c.toNat && c.toNat ≤ 57

/-- Decimal rendering of `n`, most significant digit first (fuelled). -/
def natCharsAux : Nat → Nat → List Char
  | 0, _ => []
  | fuel + 1, n =>
    if n = 0 then [] else natCharsAux fuel (n / 10) ++ [digitChar (n % 10)]

/-- Decimal rendering of `n` (empty for `0`; markers use `n ≥ 1`). -/
def natChars (n : Nat) : List Char := natCharsAux n n

/-- Parse a big-endian digit string. -/
def digitsToNat (ds : List Char) : Nat :=
  ds.foldl (fun acc c => 10 * acc + charVal c) 0

/-! ## MarkerCodec

Modelled from the spec: the server-side `page_marker` module (MarkerCodec)
is not under `src/`; `encode`/`decode` below follow the spec's marker
protocol `<<<PAGE:n>>>` (marker line, newline, page text, pages separated
by a newline). -/
/-- A raw page: 1-indexed page number and its text. -/
structure Page where
  pageNo : Nat
  text : Text
deriving DecidableEq, Repr

/-- The literal marker line `<<<PAGE:n>>>`. -/
def markerLine (n : Nat) : Text :=
  "<<<PAGE:".data ++ natChars n ++ ">>>".data

/-- Recognize a marker line and return its page number; `none` for any
line that is not exactly `<<<PAGE:` + digits + `>>>`. -/
def parseMarker (line : Text) : Option Nat :=
  if line.take 8 = "<<<PAGE:".data then
    if 12 ≤ line.length then
      if line.drop (line.length - 3) = ">>>".data then
        let ds := (line.drop 8).take (line.length - 11)
        if ds.all isDigitChar then some (digitsToNat ds) else none
      else none
    else none
  else none

/-- One page's block in the full text: marker line, newline, page text. -/
def encodePage (p : Page) : Text := markerLine p.pageNo ++ '\n' :: p.text

/-- Modelled from the spec: `MarkerCodec.encode` — marker line + page text
per page, in order, separated by a newline after the marker and between
pages.  Total over any page collection. -/
def encode (pages : List Page) : Text := joinLines (pages.map encodePage)

/-- The only decode-side failure: malformed or tampered marker structure. -/
inductive CodecError where
  | markerInvalid
deriving DecidableEq, Repr

/-- One step of the line scanner.  The state is `none` after content was
seen before the first marker, otherwise the groups collected so far, most
recent first, each `(page number, body lines reversed)`. -/
def scanStep (acc : Option (List (Nat × List Text))) (line : Text) :
    Option (List (Nat × List Text)) :=
  match acc with
  | none => none
  | some groups =>
    match parseMarker line with
    | some n => some ((n, []) :: groups)
    | none =>
      match groups with
      | [] => none
      | (m, body) :: rest => some ((m, line :: body) :: rest)

/-- Scan the lines of a marked text into marker groups. -/
def scanLines (lines : List Text) : Option (List (Nat × List Text)) :=
  lines.foldl scanStep (some [])

/-- Modelled from the spec: `MarkerCodec.decode` — strict inverse of
`encode`; fails with `MarkerInvalidError` when no marker is found, when
content appears before the first marker, or when the marker numbers are
not exactly `1..expected`. -/
def decode (text : Text) (expected : Nat) : Except CodecError (List Page) :=
  match scanLines (splitLines text) with
  | none => .error .markerInvalid
  | some groups =>
    let pages := groups.reverse.map
      (fun g => Page.mk g.1 (joinLines g.2.reverse))
    if pages.map Page.pageNo = List.range' 1 expected then .ok pages
    else .error .markerInvalid

/-- The group produced by one page. -/
def pageGroup (p : Page) : Nat × List Text := (p.pageNo, (splitLines p.text).reverse)

/-- The encoded blocks of a page list, as lines. -/
def pageLines (pages : List Page) : List Text :=
  pages.flatMap (fun p => markerLine p.pageNo :: splitLines p.text)

/-! ## ChunkEngine

Modelled from the spec: the server-side chunking module is not under
`src/`.  All three split modes share one cursor loop over a page body of
length `L`: the next chunk's end is `tgt start` (for `chars` simply
`start + chunk_size`; for `paragraph`/`heading` the target snapped to a
boundary at or after it); if that end reaches the page end the final
chunk is truncated to `L`, otherwise the next chunk's start is `back end`
(rewind by `overlap`, re-snapped to a boundary for the snapping modes).
The loop is fuelled by `L`, emitting a final chunk to `L` if fuel runs
out, which preserves the coverage invariant. -/
/-- The split policies. -/
inductive SplitMode where
  | chars
  | paragraph
  | heading
deriving DecidableEq, Repr

/-- Modelled from the spec: `ChunkStrategy` parameters. -/
structure ChunkStrategy where
  chunk_size : Nat
  overlap : Nat
  split_mode : SplitMode
  normalize : Bool
deriving DecidableEq, Repr

/-- The cursor loop shared by all split modes (body-relative offsets). -/
def engineAux (L : Nat) (tgt : Nat → Nat) (back : Nat → Nat) :
    Nat → Nat → List (Nat × Nat)
  | 0, s => [(s, L)]
  | fuel + 1, s =>
    if tgt s < L then (s, tgt s) :: engineAux L tgt back fuel (back (tgt s))
    else [(s, L)]

/-- Run the cursor loop over a whole page body. -/
def engine (L : Nat) (tgt : Nat → Nat) (back : Nat → Nat) : List (Nat × Nat) :=
  engineAux L tgt back L 0

/-- Modelled from the spec: `chars` split mode — fixed windows of
`chunk_size` advancing by `chunk_size - overlap`, final window truncated
to the page end. -/
def charChunks (len size ov : Nat) : List (Nat × Nat) :=
  engine len (fun s => s + size) (fun t => t - ov)

/-! ## SpanIndexer

Modelled from the spec: `build_page_spans` — each page's span starts at
its marker line's offset; its end is the next page's start (so it
includes the separating newline), or the text length for the last page. -/
/-- A page span over the full marked text.  The source field `end` is a
Lean keyword, so it is called `stop` here. -/
structure PageSpan where
  page_no : Nat
  start : Nat
  stop : Nat
deriving DecidableEq, Repr

/-- Spans of consecutive pages starting at offset `off`. -/
def buildPageSpansFrom (off : Nat) : List Page → List PageSpan
  | [] => []
  | [p] => [⟨p.pageNo, off, off + (encodePage p).length⟩]
  | p :: q :: ps =>
    ⟨p.pageNo, off, off + (encodePage p).length + 1⟩ ::
      buildPageSpansFrom (off + (encodePage p).length + 1) (q :: ps)

/-- Modelled from the spec: `SpanIndexer.build_page_spans`. -/
def build_page_spans (pages : List Page) : List PageSpan := buildPageSpansFrom 0 pages

/-- The start of a page's body: its span minus its own marker line. -/
def bodyStart (sp : PageSpan) : Nat := sp.start + (markerLine sp.page_no).length + 1

/-- `isChain lo spans hi`: the spans tile `[lo, hi)` exactly — each span
starts where the previous one stopped, with no gaps or overlaps. -/
def isChain : Nat → List PageSpan → Nat → Prop
  | lo, [], hi => lo = hi
  | lo, sp :: sps, hi => sp.start = lo ∧ sp.start ≤ sp.stop ∧ isChain sp.stop sps hi

/-! ### Boundary snapping for the `paragraph` and `heading` modes -/
/-- Offsets of the newline characters of a body. -/
def newlinePositions (body : Text) : List Nat :=
  (List.range body.length).filter (fun i => body.getD i ' ' = '\n')

/-- Positions just after a double newline (paragraph boundaries). -/
def paragraphBounds (body : Text) : List Nat :=
  ((List.range body.length).filter
    (fun i => body.getD i ' ' = '\n' && body.getD (i + 1) ' ' = '\n')).map
    (fun i => i + 2)

/-- Positions just after any newline (single-newline fallback). -/
def singleBounds (body : Text) : List Nat :=
  (newlinePositions body).map (fun i => i + 1)

/-- Line start offsets of a body. -/
def lineStartPositions (body : Text) : List Nat :=
  0 :: (newlinePositions body).map (fun i => i + 1)

/-- The line beginning at offset `pos`. -/
def lineAt (body : Text) (pos : Nat) : Text :=
  (body.drop pos).takeWhile (fun c => c ≠ '\n')

/-- Modelled from the spec: a lightweight structural pattern for
heading-like lines (short lines starting with a digit, an uppercase
letter or a `#`). -/
def isHeadingLine (line : Text) : Bool :=
  match line with
  | [] => false
  | c :: _ => line.length ≤ 80 && (c.isUpper || c.isDigit || c = '#')

/-- Start offsets of heading-like lines (heading boundaries). -/
def headingBounds (body : Text) : List Nat :=
  (lineStartPositions body).filter (fun pos => isHeadingLine (lineAt body pos))

/-- The least boundary in `[t, L]`, or `L` when there is none. -/
def snapUp (bounds : List Nat) (t L : Nat) : Nat :=
  (bounds.filter (fun b => decide (t ≤ b) && decide (b ≤ L))).foldr min L

/-- The greatest boundary at or before `t`, or `0` when there is none. -/
def snapDown (bounds : List Nat) (t : Nat) : Nat :=
  (bounds.filter (fun b => decide (b ≤ t))).foldr max 0

/-- Paragraph end snapping: a double-newline boundary at or after the
target if any, else a single-newline boundary, else the page end. -/
def paraSnapEnd (body : Text) (t L : Nat) : Nat :=
  if (paragraphBounds body).filter (fun b => decide (t ≤ b) && decide (b ≤ L)) ≠ []
  then snapUp (paragraphBounds body) t L
  else snapUp (singleBounds body) t L

/-- Heading end snapping: a heading boundary at or after the target if
any, else fall back to the paragraph policy. -/
def headSnapEnd (body : Text) (t L : Nat) : Nat :=
  if (headingBounds body).filter (fun b => decide (t ≤ b) && decide (b ≤ L)) ≠ []
  then snapUp (headingBounds body) t L
  else paraSnapEnd body t L

/-- Paragraph start re-snapping after the overlap rewind. -/
def paraSnapBack (body : Text) (t : Nat) : Nat :=
  snapDown (paragraphBounds body ++ singleBounds body) t

/-- Heading start re-snapping after the overlap rewind. -/
def headSnapBack (body : Text) (t : Nat) : Nat :=
  snapDown (headingBounds body ++ paragraphBounds body ++ singleBounds body) t

/-- The chunk-end function of each split mode. -/
def modeTgt (mode : SplitMode) (body : Text) (size L : Nat) : Nat → Nat :=
  match mode with
  | .chars => fun s => s + size
  | .paragraph => fun s => paraSnapEnd body (min (s + size) L) L
  | .heading => fun s => headSnapEnd body (min (s + size) L) L

/-- The next-chunk-start function of each split mode (overlap rewind). -/
def modeBack (mode : SplitMode) (body : Text) (ov : Nat) : Nat → Nat :=
  match mode with
  | .chars => fun t => t - ov
  | .paragraph => fun t => paraSnapBack body (t - ov)
  | .heading => fun t => headSnapBack body (t - ov)

/-- Modelled from the spec: the chunks of one page, over the page's body
(the span minus its own marker line), as absolute spans into the text. -/
def chunksFor (text : Text) (strat : ChunkStrategy) (sp : PageSpan) : List (Nat × Nat) :=
  let bs := bodyStart sp
  let L := sp.stop - bs
  let body := (text.drop bs).take L
  (engine L (modeTgt strat.split_mode body strat.chunk_size L)
    (modeBack strat.split_mode body strat.overlap)).map
    (fun c => (bs + c.1, bs + c.2))

/-- Modelled from the spec: `ChunkEngine.split` — chunks of every page,
tagged with their page number, in page order. -/
def split (text : Text) (page_spans : List PageSpan) (strat : ChunkStrategy) :
    List (Nat × Nat × Nat) :=
  page_spans.flatMap (fun sp => (chunksFor text strat sp).map (fun c => (sp.page_no, c)))

/-! ## Normalization and the SessionMutator

Modelled from the spec: the server-side session mutation pipeline is not
under `src/`; the frontend store (`setCurrentText` / `setChunkStrategy`)
and the API docs fix its observable contract (409 on version mismatch,
422 on marker errors, version `+1` on success, strategy edits rebuilt
from `base_pages`). -/
/-- Collapse runs of three or more newlines down to two (`k` counts the
newlines just emitted). -/
def collapseNLGo (k : Nat) : Text → Text
  | [] => []
  | c :: rest =>
    if c = '\n' then
      if 2 ≤ k then collapseNLGo k rest else '\n' :: collapseNLGo (k + 1) rest
    else c :: collapseNLGo 0 rest

/-- Turn CRLF line endings into LF. -/
def fixCRLF : Text → Text
  | [] => []
  | '\r' :: '\n' :: rest => '\n' :: fixCRLF rest
  | c :: rest => c :: fixCRLF rest

/-- Modelled from the spec: normalization — unify line endings, collapse
excess blank lines. -/
def normalizeText (t : Text) : Text := collapseNLGo 0 (fixCRLF t)

/-- Normalize one page's text, keeping its number. -/
def normalizePage (p : Page) : Page := ⟨p.pageNo, normalizeText p.text⟩

/-- Apply normalization when the strategy requests it. -/
def applyNormalize (strat : ChunkStrategy) (pages : List Page) : List Page :=
  if strat.normalize then pages.map normalizePage else pages

/-- A chunk span tagged with its page number. -/
abbrev ChildChunk := Nat × Nat × Nat

/-- The session aggregate (derived fields plus the version counter). -/
structure Session where
  base_pages : List Page
  current_pages : List Page
  current_text : Text
  page_map : List PageSpan
  chunk_strategy : ChunkStrategy
  chunks : List ChildChunk
  version : Nat
deriving DecidableEq, Repr

/-- Mutation failures: stale version or marker-invalid text. -/
inductive MutError where
  | versionConflict
  | markerInvalid
deriving DecidableEq, Repr

/-- Re-derive all state of a session from its current pages. -/
def rederive (s : Session) (strat : ChunkStrategy) (pages : List Page) : Session :=
  let cur := applyNormalize strat pages
  let text := encode cur
  let spans := build_page_spans cur
  { s with
    current_pages := cur
    current_text := text
    page_map := spans
    chunk_strategy := strat
    chunks := split text spans strat
    version := s.version + 1 }

/-- Modelled from the spec: the text-edit mutation — validate the
version, decode the supplied text against the base page count, then
re-derive everything and bump the version. -/
def updateText (s : Session) (v : Nat) (text : Text) : Except MutError Session :=
  if v ≠ s.version then .error .versionConflict
  else
    match decode text s.base_pages.length with
    | .error _ => .error .markerInvalid
    | .ok pages => .ok (rederive s s.chunk_strategy pages)

/-- Modelled from the spec: the strategy-edit mutation — validate the
version, rebuild `current_pages` from the immutable `base_pages`, then
re-derive everything and bump the version. -/
def updateStrategy (s : Session) (v : Nat) (strat : ChunkStrategy) :
    Except MutError Session :=
  if v ≠ s.version then .error .versionConflict
  else .ok (rederive s strat s.base_pages)

/-- The persisted session after a text-edit request: the new revision on
success, the untouched old session on failure. -/
def persistText (s : Session) (v : Nat) (text : Text) : Session :=
  match updateText s v text with
  | .ok s' => s'
  | .error _ => s

/-- The persisted session after a strategy-edit request. -/
def persistStrategy (s : Session) (v : Nat) (strat : ChunkStrategy) : Session :=
  match updateStrategy s v strat with
  | .ok s' => s'
  | .error _ => s

/-- The session used by the concrete witnesses. -/
def sessionExample : Session :=
  rederive
    ⟨[⟨1, "A".data⟩, ⟨2, "B".data⟩], [⟨1, "A".data⟩, ⟨2, "B".data⟩], [], [],
      ⟨100, 0, .chars, false⟩, [], 0⟩
    ⟨100, 0, .chars, false⟩ [⟨1, "A".data⟩, ⟨2, "B".data⟩]

/-! ## IndexRouter

Modelled from the spec: the server-side OpenSearch index manager is not
under `src/`; the frontend (`getCompatibleIndices` filters indices whose
recorded dimension equals the model's) and the docs fix its contract. -/
/-- The index store as seen by the router: recorded name → vector
dimensionality. -/
abbrev IndexStore := List (String × Nat)

/-- The recorded dimensionality of an index, if it exists. -/
def lookupIndex (st : IndexStore) (name : String) : Option Nat :=
  (st.find? (fun e => e.1 = name)).map Prod.snd

/-- The router failure: model/index vector-size disagreement. -/
inductive IndexError where
  | dimensionMismatch
deriving DecidableEq, Repr

/-- Modelled from the spec: `ensure_compatible` — a new index name is a
no-op (to be created); an existing index must record exactly the model's
dimensionality, else `DimensionMismatch`. -/
def ensure_compatible (st : IndexStore) (name : String) (dim : Nat) :
    Except IndexError Unit :=
  match lookupIndex st name with
  | none => .ok ()
  | some d => if d = dim then .ok () else .error .dimensionMismatch

/-- Modelled from the spec: an index write — gated on `ensure_compatible`;
creates the index with the model dimension when new, and never writes on
a dimension mismatch. -/
def writeChunks (st : IndexStore) (name : String) (dim : Nat)
    (_records : List (String × Text)) : Except IndexError IndexStore :=
  match ensure_compatible st name dim with
  | .error e => .error e
  | .ok _ =>
    .ok (if (lookupIndex st name).isSome then st else (name, dim) :: st)

/-! ## ContentAddresser

Modelled from the spec and the server docs: the hashing module is not
under `src/`.  The digest is SHA-256 (implemented here over byte lists,
words as `Nat` reduced mod `2^32`, checked against the standard test
vectors) of the canonical string `doc_id:chunk:{chunk_id}:{text}`
(`doc_id:page:{page_no}:{text}` for pages), UTF-8 encoded. -/
/-- Reduce to a 32-bit word. -/
def w32 (x : Nat) : Nat := x % 4294967296

/-- 32-bit right rotation. -/
def rotr32 (n x : Nat) : Nat := w32 ((x >>> n) ||| (x <<< (32 - n)))

/-- The SHA-256 round constants (decimal). -/
def shaK : List Nat :=
  [1116352408, 1899447441, 3049323471, 3921009573, 961987163,
   1508970993, 2453635748, 2870763221, 3624381080, 310598401,
   607225278, 1426881987, 1925078388, 2162078206, 2614888103,
   3248222580, 3835390401, 4022224774, 264347078, 604807628,
   770255983, 1249150122, 1555081692, 1996064986, 2554220882,
   2821834349, 2952996808, 3210313671, 3336571891, 3584528711,
   113926993, 338241895, 666307205, 773529912, 1294757372,
   1396182291, 1695183700, 1986661051, 2177026350, 2456956037,
   2730485921, 2820302411, 3259730800, 3345764771, 3516065817,
   3600352804, 4094571909, 275423344, 430227734, 506948616,
   659060556, 883997877, 958139571, 1322822218, 1537002063,
   1747873779, 1955562222, 2024104815, 2227730452, 2361852424,
   2428436474, 2756734187, 3204031479, 3329325298]

/-- The SHA-256 initial hash state (decimal). -/
def shaH0 : List Nat :=
  [1779033703, 3144134277, 1013904242, 2773480762,
   1359893119, 2600822924, 528734635, 1541459225]

/-- Three-way xor. -/
def xor3 (x y z : Nat) : Nat := x ^^^ y ^^^ z

/-- The SHA-256 round function Ch. -/
def chFn (e f g : Nat) : Nat := (e &&& f) ^^^ ((e ^^^ 4294967295) &&& g)

/-- The SHA-256 round function Maj. -/
def majFn (a b c : Nat) : Nat := xor3 (a &&& b) (a &&& c) (b &&& c)

/-- Big-endian byte rendering of `n` on `k` bytes. -/
def beBytes (k n : Nat) : List Nat :=
  (List.range k).reverse.map (fun i => (n >>> (8 * i)) % 256)

/-- SHA-256 padding: `0x80`, zeros to 56 mod 64, 64-bit big-endian bit
length. -/
def padMessage (msg : List Nat) : List Nat :=
  let r := (msg.length + 1) % 64
  let padZeros := (120 - r) % 64
  msg ++ [0x80] ++ List.replicate padZeros 0 ++ beBytes 8 (msg.length * 8)

/-- The 16 initial schedule words of a 64-byte block. -/
def blockWords (block : List Nat) : List Nat :=
  (List.range 16).map (fun i =>
    (block.getD (4 * i) 0) <<< 24 + (block.getD (4 * i + 1) 0) <<< 16 +
      (block.getD (4 * i + 2) 0) <<< 8 + block.getD (4 * i + 3) 0)

/-- Append the next message-schedule word. -/
def scheduleStep (w : List Nat) : List Nat :=
  let i := w.length
  let x15 := w.getD (i - 15) 0
  let x2 := w.getD (i - 2) 0
  let s0 := xor3 (rotr32 7 x15) (rotr32 18 x15) (x15 >>> 3)
  let s1 := xor3 (rotr32 17 x2) (rotr32 19 x2) (x2 >>> 10)
  w ++ [w32 (w.getD (i - 16) 0 + s0 + w.getD (i - 7) 0 + s1)]

/-- Extend the 16 block words to the full 64-word schedule. -/
def schedule (w16 : List Nat) : List Nat :=
  (List.range 48).foldl (fun w _ => scheduleStep w) w16

/-- One SHA-256 compression round. -/
def compressStep (state : List Nat) (kw : Nat × Nat) : List Nat :=
  match state with
  | [a, b, c, d, e, f, g, h] =>
    let S1 := xor3 (rotr32 6 e) (rotr32 11 e) (rotr32 25 e)
    let temp1 := w32 (h + S1 + chFn e f g + kw.1 + kw.2)
    let S0 := xor3 (rotr32 2 a) (rotr32 13 a) (rotr32 22 a)
    let temp2 := w32 (S0 + majFn a b c)
    [w32 (temp1 + temp2), a, b, c, w32 (d + temp1), e, f, g]
  | _ => state

/-- Process one 64-byte block into the running hash state. -/
def processBlock (h : List Nat) (block : List Nat) : List Nat :=
  let st := (shaK.zip (schedule (blockWords block))).foldl compressStep h
  (h.zip st).map (fun p => w32 (p.1 + p.2))

/-- Split a byte list into 64-byte blocks. -/
def toBlocks (l : List Nat) : List (List Nat) :=
  if h : l = [] then []
  else
    l.take 64 :: toBlocks (l.drop 64)
termination_by l.length
decreasing_by
  simp only [List.length_drop]
  have : 0 < l.length := List.length_pos.2 h
  omega

/-- SHA-256 of a byte list, as eight 32-bit words. -/
def sha256 (msg : List Nat) : List Nat :=
  (toBlocks (padMessage msg)).foldl processBlock shaH0

/-- UTF-8 encoding of one character. -/
def utf8Char (c : Char) : List Nat :=
  let n := c.toNat
  if n < 0x80 then [n]
  else if n < 0x800 then [0xC0 + n / 64, 0x80 + n % 64]
  else if n < 0x10000 then
    [0xE0 + n / 4096, 0x80 + n / 64 % 64, 0x80 + n % 64]
  else
    [0xF0 + n / 262144, 0x80 + n / 4096 % 64, 0x80 + n / 64 % 64, 0x80 + n % 64]

/-- UTF-8 encoding of a text. -/
def strBytes (t : Text) : List Nat := t.flatMap utf8Char

/-- Modelled from the spec: `hash_chunk` — SHA-256 of the canonical
string `doc_id:chunk:{chunk_id}:{chunk_text}`. -/
def hash_chunk (doc_id chunk_id text : Text) : List Nat :=
  sha256 (strBytes (doc_id ++ ":chunk:".data ++ chunk_id ++ ":".data ++ text))

/-- Modelled from the spec: `hash_page` — SHA-256 of the canonical
string `doc_id:page:{page_no}:{page_text}`. -/
def hash_page (doc_id : Text) (page_no : Nat) (text : Text) : List Nat :=
  sha256 (strBytes (doc_id ++ ":page:".data ++ natChars page_no ++ ":".data ++ text))

/-! ## Frontend `lineStarts.ts` (translated from the TypeScript source)

`buildLineStarts` collects `0` and every offset just after a newline;
`offsetToPosition` binary-searches that array for the line containing an
offset and returns Monaco's 1-based line/column. -/
/-- The loop of `buildLineStarts`: for each index `i` holding `'\n'`,
push `i + 1` (`i` is the absolute index of the head of the list). -/
def lineStartsAux : Nat → Text → List Nat
  | _, [] => []
  | i, c :: cs =>
    if c = '\n' then (i + 1) :: lineStartsAux (i + 1) cs
    else lineStartsAux (i + 1) cs

/-- `buildLineStarts` from `lineStarts.ts`: `[0]` plus `i + 1` for every
newline index `i`. -/
def buildLineStarts (text : Text) : List Nat := 0 :: lineStartsAux 0 text

/-- The binary-search loop of `offsetToPosition`: biased-up midpoint,
move `low` up while `lineStarts[mid] <= offset`. -/
def searchLow (lineStarts : List Nat) (offset : Nat) (low high : Nat) : Nat :=
  if low < high then
    if lineStarts.getD ((low + high + 1) / 2) 0 ≤ offset then
      searchLow lineStarts offset ((low + high + 1) / 2) high
    else searchLow lineStarts offset low ((low + high + 1) / 2 - 1)
  else low
termination_by high - low
decreasing_by
  · omega
  · omega

/-- `offsetToPosition` from `lineStarts.ts` (1-based line and column). -/
def offsetToPosition (offset : Nat) (lineStarts : List Nat) : Nat × Nat :=
  let low := searchLow lineStarts offset 0 (lineStarts.length - 1)
  (low + 1, offset - lineStarts.getD low 0 + 1)

/-- The naive start-of-line: the length of the run of non-newline
characters ending the first `offset` characters, subtracted from
`offset`. -/
def naiveLineStart (text : Text) (offset : Nat) : Nat :=
  offset - ((text.take offset).reverse.takeWhile (fun c => c ≠ '\n')).length

/-- The length of the run of non-newline characters ending the first
`offset` characters. -/
def tailRun (text : Text) (offset : Nat) : Nat :=
  ((text.take offset).reverse.takeWhile (fun c => c ≠ '\n')).length

/-! ## Frontend `extractModelFromIndex` (translated from
`FullTextEditor.tsx`) and the IndexRouter name resolution. -/
/-- Does the string contain the separator `"__"`?
(`indexName.includes("__")`). -/
def containsDD : Text → Bool
  | '_' :: '_' :: _ => true
  | _ :: rest => containsDD rest
  | [] => false

/-- JavaScript `split("__")`: leftmost, non-overlapping split on the
two-character separator. -/
def splitDD : Text → List Text
  | '_' :: '_' :: rest => [] :: splitDD rest
  | c :: rest =>
    match splitDD rest with
    | [] => [[c]]
    | l :: ls => (c :: l) :: ls
  | [] => [[]]

/-- `modelKey.replace(/_/g, "-")` on one character. -/
def underscoreToHyphen (c : Char) : Char := if c = '_' then '-' else c

/-- `extractModelFromIndex` from `FullTextEditor.tsx`: element 1 of the
split on `"__"` with underscores turned into hyphens, or the input
unchanged when it has no `"__"`. -/
def extractModelFromIndex (s : Text) : Text :=
  if containsDD s then ((splitDD s).getD 1 []).map underscoreToHyphen
  else s

/-- Modelled from the spec: `IndexRouter` sanitization — non-alphanumeric
characters become `_`. -/
def sanitizeModel (m : Text) : Text :=
  m.map (fun c => if c.isAlphanum then c else '_')

/-- Modelled from the spec: `IndexRouter.resolve` — sanitized model name
appended to the base index with the fixed `__` separator. -/
def resolve (base_index model : Text) : Text :=
  base_index ++ "__".data ++ sanitizeModel model

/-! ## Theorems -/

theorem splitLines_ne_nil (t : Text) : splitLines t ≠ [] := by
  induction t with
  | nil => simp [splitLines]
  | cons c cs ih =>
    simp only [splitLines]
    split
    · simp
    · cases h : splitLines cs <;> simp

theorem joinLines_splitLines (t : Text) : joinLines (splitLines t) = t := by
  induction t with
  | nil => rfl
  | cons c cs ih =>
    simp only [splitLines]
    split
    · rename_i h
      subst h
      cases h' : splitLines cs with
      | nil => exact absurd h' (splitLines_ne_nil cs)
      | cons l ls =>
        rw [h'] at ih
        simp [joinLines, ih]
    · cases h' : splitLines cs with
      | nil => exact absurd h' (splitLines_ne_nil cs)
      | cons l ls =>
        rw [h'] at ih
        cases ls with
        | nil => simp_all [joinLines]
        | cons l' ls' => simp_all [joinLines]

theorem splitLines_append (xs ys : Text) :
    splitLines (xs ++ '\n' :: ys) = splitLines xs ++ splitLines ys := by
  induction xs with
  | nil => simp [splitLines]
  | cons c cs ih =>
    by_cases hc : c = '\n'
    · subst hc
      simp [splitLines, ih]
    · cases h' : splitLines cs with
      | nil => exact absurd h' (splitLines_ne_nil cs)
      | cons l ls =>
        simp only [List.cons_append, splitLines, if_neg hc, List.append_eq]
        rw [ih, h']
        simp

/-- A text with no newline is a single line. -/
theorem splitLines_eq_single (t : Text) (h : '\n' ∉ t) : splitLines t = [t] := by
  induction t with
  | nil => rfl
  | cons c cs ih =>
    simp only [List.mem_cons, not_or] at h
    have hc : ¬ c = '\n' := fun hh => h.1 hh.symm
    simp only [splitLines, if_neg hc, ih h.2]

theorem charVal_digitChar {d : Nat} (hd : d < 10) : charVal (digitChar d) = d := by
  interval_cases d <;> rfl

theorem isDigitChar_digitChar {d : Nat} (hd : d < 10) :
    isDigitChar (digitChar d) = true := by
  interval_cases d <;> rfl

theorem digitChar_ne_newline {d : Nat} (hd : d < 10) : digitChar d ≠ '\n' := by
  interval_cases d <;> decide

theorem digitsToNat_append_digit (ds : List Char) (c : Char) :
    digitsToNat (ds ++ [c]) = 10 * digitsToNat ds + charVal c := by
  simp [digitsToNat, List.foldl_append]

theorem natCharsAux_spec :
    ∀ fuel n, n ≤ fuel →
      digitsToNat (natCharsAux fuel n) = n ∧
      (∀ c ∈ natCharsAux fuel n, isDigitChar c = true ∧ c ≠ '\n') ∧
      (1 ≤ n → natCharsAux fuel n ≠ []) := by
  intro fuel
  induction fuel with
  | zero =>
    intro n hn
    interval_cases n
    exact ⟨rfl, by simp [natCharsAux], by simp⟩
  | succ f ih =>
    intro n hn
    by_cases h0 : n = 0
    · subst h0
      exact ⟨rfl, by simp [natCharsAux], by simp⟩
    · have hdiv : n / 10 ≤ f := by
        have : n / 10 < n := Nat.div_lt_self (Nat.pos_of_ne_zero h0) (by omega)
        omega
      obtain ⟨ih1, ih2, _⟩ := ih (n / 10) hdiv
      have hmod : n % 10 < 10 := Nat.mod_lt _ (by omega)
      refine ⟨?_, ?_, ?_⟩
      · simp only [natCharsAux, if_neg h0]
        rw [digitsToNat_append_digit, ih1, charVal_digitChar hmod]
        omega
      · simp only [natCharsAux, if_neg h0]
        intro c hc
        rcases List.mem_append.1 hc with h | h
        · exact ih2 c h
        · simp only [List.mem_singleton] at h
          subst h
          exact ⟨isDigitChar_digitChar hmod, digitChar_ne_newline hmod⟩
      · intro _
        simp only [natCharsAux, if_neg h0]
        simp

theorem digitsToNat_natChars (n : Nat) : digitsToNat (natChars n) = n :=
  (natCharsAux_spec n n le_rfl).1

theorem natChars_digits (n : Nat) :
    ∀ c ∈ natChars n, isDigitChar c = true ∧ c ≠ '\n' :=
  (natCharsAux_spec n n le_rfl).2.1

theorem natChars_ne_nil {n : Nat} (hn : 1 ≤ n) : natChars n ≠ [] :=
  (natCharsAux_spec n n le_rfl).2.2 hn

theorem markerLine_no_newline (n : Nat) : '\n' ∉ markerLine n := by
  intro h
  simp only [markerLine, List.mem_append] at h
  rcases h with (h | h) | h
  · revert h; decide
  · exact (natChars_digits n _ h).2 rfl
  · revert h; decide

theorem parseMarker_markerLine {n : Nat} (hn : 1 ≤ n) :
    parseMarker (markerLine n) = some n := by
  have hds := natChars_digits n
  have hne := natChars_ne_nil hn
  set k := (natChars n).length with hk
  have hk1 : 1 ≤ k := by
    cases h : natChars n with
    | nil => exact absurd h hne
    | cons a l => simp [hk, h]
  have hlen : (markerLine n).length = 8 + k + 3 := by
    simp [markerLine]
    omega
  have htake : (markerLine n).take 8 = "<<<PAGE:".data := by
    simp only [markerLine]
    rw [List.append_assoc, List.take_append_of_le_length (by simp)]
    rfl
  have hdrop3 : (markerLine n).drop ((markerLine n).length - 3) = ">>>".data := by
    have h1 : markerLine n = ("<<<PAGE:".data ++ natChars n) ++ ">>>".data := by
      simp [markerLine]
    have h2 : 8 + k + 3 - 3 = ("<<<PAGE:".data ++ natChars n).length := by
      rw [List.length_append, show ("<<<PAGE:".data).length = 8 from rfl, hk]
      omega
    rw [hlen, h1, h2, List.drop_left]
  have hds' : (markerLine n).drop 8 = natChars n ++ ">>>".data := by
    simp only [markerLine]
    rw [List.append_assoc, List.drop_append_of_le_length (by simp)]
    simp
  have hmid : ((markerLine n).drop 8).take ((markerLine n).length - 11) = natChars n := by
    rw [hds', hlen]
    rw [show (8 + k + 3 - 11) = k from by omega, hk]
    rw [List.take_append_of_le_length le_rfl, List.take_length]
  rw [parseMarker]
  rw [if_pos htake, if_pos (by omega), if_pos hdrop3]
  simp only [hmid]
  rw [if_pos (by
    rw [List.all_eq_true]
    intro c hc
    exact (hds c hc).1)]
  rw [digitsToNat_natChars]

theorem encode_cons (p : Page) (q : Page) (ps : List Page) :
    encode (p :: q :: ps) = encodePage p ++ '\n' :: encode (q :: ps) := by
  simp [encode, joinLines]

theorem encode_single (p : Page) : encode [p] = encodePage p := by
  simp [encode, joinLines]

/-- Scanning a run of non-marker lines appends them to the open group. -/
theorem foldl_scanStep_body (bodyLines : List Text)
    (hb : ∀ l ∈ bodyLines, parseMarker l = none) :
    ∀ (n : Nat) (rb : List Text) (gs : List (Nat × List Text)) (rest : List Text),
      List.foldl scanStep (some ((n, rb) :: gs)) (bodyLines ++ rest) =
        List.foldl scanStep (some ((n, bodyLines.reverse ++ rb) :: gs)) rest := by
  induction bodyLines with
  | nil => intro n rb gs rest; simp
  | cons l ls ih =>
    intro n rb gs rest
    have hl : parseMarker l = none := hb l (by simp)
    have hls : ∀ l' ∈ ls, parseMarker l' = none := fun l' h => hb l' (by simp [h])
    simp only [List.cons_append, List.foldl_cons, scanStep, hl]
    rw [ih hls n (l :: rb) gs rest]
    simp

theorem foldl_scanStep_pages (pages : List Page)
    (hno : ∀ p ∈ pages, 1 ≤ p.pageNo)
    (hclean : ∀ p ∈ pages, ∀ l ∈ splitLines p.text, parseMarker l = none) :
    ∀ gs : List (Nat × List Text),
      List.foldl scanStep (some gs) (pageLines pages) =
        some ((pages.map pageGroup).reverse ++ gs) := by
  induction pages with
  | nil => intro gs; simp [pageLines]
  | cons p ps ih =>
    intro gs
    have hm : parseMarker (markerLine p.pageNo) = some p.pageNo :=
      parseMarker_markerLine (hno p (by simp))
    simp only [pageLines, List.flatMap_cons, List.cons_append, List.foldl_cons,
      List.foldl_append, scanStep, hm]
    have hbody := foldl_scanStep_body (splitLines p.text) (hclean p (by simp))
      p.pageNo [] gs []
    simp only [List.append_nil, List.foldl_nil] at hbody
    rw [hbody]
    have ih' := ih (fun q hq => hno q (by simp [hq]))
      (fun q hq => hclean q (by simp [hq]))
    rw [show (ps.flatMap fun q => markerLine q.pageNo :: splitLines q.text) =
        pageLines ps from rfl]
    rw [ih' ((p.pageNo, (splitLines p.text).reverse) :: gs)]
    simp [pageGroup]

/-- The lines of an encoded page list are exactly the page blocks. -/
theorem splitLines_encode (pages : List Page) (hne : pages ≠ []) :
    splitLines (encode pages) = pageLines pages := by
  induction pages with
  | nil => exact absurd rfl hne
  | cons p ps ih =>
    cases ps with
    | nil =>
      simp only [encode_single, encodePage, pageLines, List.flatMap_cons,
        List.flatMap_nil, List.append_nil]
      rw [show markerLine p.pageNo ++ '\n' :: p.text =
          markerLine p.pageNo ++ ('\n' :: p.text) from rfl]
      rw [splitLines_append (markerLine p.pageNo) p.text,
        splitLines_eq_single _ (markerLine_no_newline p.pageNo)]
      rfl
    | cons q qs =>
      rw [encode_cons]
      rw [show encodePage p ++ '\n' :: encode (q :: qs) =
          (markerLine p.pageNo ++ '\n' :: p.text) ++ '\n' :: encode (q :: qs) from rfl]
      rw [splitLines_append _ (encode (q :: qs)), ih (by simp)]
      rw [show markerLine p.pageNo ++ '\n' :: p.text =
          markerLine p.pageNo ++ ('\n' :: p.text) from rfl]
      rw [splitLines_append (markerLine p.pageNo) p.text,
        splitLines_eq_single _ (markerLine_no_newline p.pageNo)]
      simp [pageLines]

theorem pageNo_pos_of_range {pages : List Page} {N : Nat}
    (hnums : pages.map Page.pageNo = List.range' 1 N) :
    ∀ p ∈ pages, 1 ≤ p.pageNo := by
  intro p hp
  have hmem : p.pageNo ∈ List.range' 1 N := by
    rw [← hnums]
    exact List.mem_map_of_mem Page.pageNo hp
  obtain ⟨i, hi, hpi⟩ := List.mem_range'.1 hmem
  omega

theorem scanLines_encode (pages : List Page) (hne : pages ≠ [])
    (hno : ∀ p ∈ pages, 1 ≤ p.pageNo)
    (hclean : ∀ p ∈ pages, ∀ l ∈ splitLines p.text, parseMarker l = none) :
    scanLines (splitLines (encode pages)) = some ((pages.map pageGroup).reverse) := by
  rw [splitLines_encode pages hne, scanLines, foldl_scanStep_pages pages hno hclean []]
  simp

/-- C1: for every page collection with contiguous page numbers `1..N`
whose page texts do not themselves contain marker lines (the markers were
not altered), decoding the encoded marker-annotated text with
`expected_page_count = N` yields exactly the original pages:
`decode (encode pages) N = .ok pages`. -/
theorem c1_decode_encode_roundtrip (pages : List Page) (N : Nat)
    (hne : pages ≠ [])
    (hnums : pages.map Page.pageNo = List.range' 1 N)
    (hclean : ∀ p ∈ pages, ∀ l ∈ splitLines p.text, parseMarker l = none) :
    decode (encode pages) N = .ok pages := by
  have hscan := scanLines_encode pages hne (pageNo_pos_of_range hnums) hclean
  simp only [decode, hscan, List.reverse_reverse]
  have hmap : (pages.map pageGroup).map (fun g => Page.mk g.1 (joinLines g.2.reverse)) =
      pages := by
    rw [List.map_map]
    have hid : ∀ p ∈ pages,
        ((fun g : Nat × List Text => Page.mk g.1 (joinLines g.2.reverse)) ∘ pageGroup) p
          = p := by
      intro p hp
      cases p
      simp [pageGroup, Function.comp, joinLines_splitLines]
    rw [List.map_congr_left hid]
    simp
  rw [hmap, if_pos hnums]

/-- Witness for `c1_decode_encode_roundtrip`: the two-page collection of
Example 1 round-trips through the codec. -/
theorem c1_decode_encode_roundtrip_witness :
    decode (encode [⟨1, "A".data⟩, ⟨2, "B".data⟩]) 2 =
      .ok [⟨1, "A".data⟩, ⟨2, "B".data⟩] :=
  c1_decode_encode_roundtrip [⟨1, "A".data⟩, ⟨2, "B".data⟩] 2 (by decide) (by decide)
    (by decide)

theorem foldl_scanStep_none (lines : List Text) :
    List.foldl scanStep none lines = none := by
  induction lines with
  | nil => rfl
  | cons l ls ih => simp [scanStep, ih]

theorem foldl_scanStep_nums (lines : List Text) :
    ∀ g gs, ∃ res, List.foldl scanStep (some (g :: gs)) lines = some res ∧
      res.reverse.map Prod.fst =
        (g :: gs).reverse.map Prod.fst ++ lines.filterMap parseMarker := by
  induction lines with
  | nil => intro g gs; exact ⟨g :: gs, rfl, by simp⟩
  | cons l ls ih =>
    intro g gs
    cases hm : parseMarker l with
    | some n =>
      obtain ⟨res, hres, hmap⟩ := ih (n, ([] : List Text)) (g :: gs)
      refine ⟨res, ?_, ?_⟩
      · simp only [List.foldl_cons, scanStep, hm]
        exact hres
      · rw [hmap]
        simp [hm]
    | none =>
      obtain ⟨res, hres, hmap⟩ := ih (g.1, l :: g.2) gs
      refine ⟨res, ?_, ?_⟩
      · simp only [List.foldl_cons, scanStep, hm]
        exact hres
      · rw [hmap]
        simp [hm]

/-- C4: `decode` fails with `MarkerInvalidError` exactly when no line of
the text is a marker, or the marker page numbers in line order are not
precisely `1..expected_page_count`, or content appears before the first
marker (a non-marker first line followed by some marker); in particular
decoding the encoded two-page text of Example 1 with page 2's marker
changed to `<<<PAGE:3>>>` fails with `MarkerInvalidError` (`encode`
itself is a total function on page collections by construction). -/
theorem c4_decode_strictness :
    (∀ (text : Text) (N : Nat),
      decode text N = .error .markerInvalid ↔
        ((∀ l ∈ splitLines text, parseMarker l = none)
          ∨ (splitLines text).filterMap parseMarker ≠ List.range' 1 N
          ∨ (∃ l ls, splitLines text = l :: ls ∧ parseMarker l = none ∧
              ∃ l' ∈ ls, (parseMarker l').isSome)))
    ∧ decode ("<<<PAGE:1>>>\nA\n<<<PAGE:3>>>\nB".data) 2 = .error .markerInvalid := by
  constructor
  · intro text N
    cases hl : splitLines text with
    | nil => exact absurd hl (splitLines_ne_nil text)
    | cons l ls =>
      cases hm : parseMarker l with
      | none =>
        have hdec : decode text N = .error .markerInvalid := by
          rw [decode, scanLines, hl]
          simp only [List.foldl_cons, scanStep, hm, foldl_scanStep_none]
        simp only [hdec, true_iff]
        by_cases hmk : ∃ l' ∈ ls, (parseMarker l').isSome
        · exact Or.inr (Or.inr ⟨l, ls, rfl, hm, hmk⟩)
        · push_neg at hmk
          refine Or.inl ?_
          intro l' hl'
          rcases List.mem_cons.1 hl' with rfl | h
          · exact hm
          · have := hmk l' h
            cases hp : parseMarker l' with
            | none => rfl
            | some n => rw [hp] at this; simp at this
      | some n =>
        obtain ⟨res, hres, hmap⟩ := foldl_scanStep_nums ls (n, ([] : List Text)) []
        have hscan : scanLines (splitLines text) = some res := by
          rw [scanLines, hl]
          simp only [List.foldl_cons, scanStep, hm]
          exact hres
        have hnums : res.reverse.map Prod.fst = (l :: ls).filterMap parseMarker := by
          rw [hmap]
          simp [hm]
        have hpages : (res.reverse.map
            (fun g => Page.mk g.1 (joinLines g.2.reverse))).map Page.pageNo =
            (l :: ls).filterMap parseMarker := by
          rw [List.map_map, ← hnums]
          rfl
        constructor
        · intro hdec
          simp only [decode, hscan] at hdec
          rw [hpages] at hdec
          by_cases hcond : (l :: ls).filterMap parseMarker = List.range' 1 N
          · rw [if_pos hcond] at hdec
            exact absurd hdec (by simp)
          · exact Or.inr (Or.inl hcond)
        · intro hcase
          rcases hcase with hnone | hbad | ⟨l', ls', heq, hm', _⟩
          · have := hnone l (by simp)
            rw [hm] at this
            exact absurd this (by simp)
          · simp only [decode, hscan]
            rw [hpages, if_neg hbad]
          · injection heq with h1 h2
            subst h1
            rw [hm] at hm'
            exact absurd hm' (by simp)
  · rfl

theorem engineAux_ne_nil (L : Nat) (tgt back : Nat → Nat) (fuel s : Nat) :
    engineAux L tgt back fuel s ≠ [] := by
  cases fuel with
  | zero => simp [engineAux]
  | succ f =>
    simp only [engineAux]
    split <;> simp

theorem engineAux_head (L : Nat) (tgt back : Nat → Nat) (fuel s : Nat) :
    ∃ e rest, engineAux L tgt back fuel s = (s, e) :: rest := by
  cases fuel with
  | zero => exact ⟨L, [], rfl⟩
  | succ f =>
    simp only [engineAux]
    split
    · exact ⟨tgt s, _, rfl⟩
    · exact ⟨L, [], rfl⟩

/-- Every chunk the loop emits is a well-formed span inside the body. -/
theorem engineAux_bounds (L : Nat) (tgt back : Nat → Nat)
    (htgt : ∀ t, t ≤ L → t ≤ tgt t) (hback : ∀ t, back t ≤ t) :
    ∀ fuel s, s ≤ L →
      ∀ c ∈ engineAux L tgt back fuel s, c.1 ≤ c.2 ∧ c.2 ≤ L := by
  intro fuel
  induction fuel with
  | zero =>
    intro s hs c hc
    simp only [engineAux, List.mem_singleton] at hc
    subst hc
    exact ⟨hs, le_rfl⟩
  | succ f ih =>
    intro s hs c hc
    simp only [engineAux] at hc
    split at hc
    · rename_i hlt
      rcases List.mem_cons.1 hc with rfl | hc'
      · exact ⟨htgt s hs, le_of_lt hlt⟩
      · exact ih (back (tgt s)) (le_trans (hback _) (le_of_lt hlt)) c hc'
    · simp only [List.mem_singleton] at hc
      subst hc
      exact ⟨hs, le_rfl⟩

/-- Coverage: the loop's chunks cover every position of `[s, L)`. -/
theorem engineAux_covers (L : Nat) (tgt back : Nat → Nat)
    (hback : ∀ t, back t ≤ t) :
    ∀ fuel s x, s ≤ x → x < L →
      ∃ c ∈ engineAux L tgt back fuel s, c.1 ≤ x ∧ x < c.2 := by
  intro fuel
  induction fuel with
  | zero =>
    intro s x hsx hx
    exact ⟨(s, L), by simp [engineAux], hsx, hx⟩
  | succ f ih =>
    intro s x hsx hx
    simp only [engineAux]
    split
    · rename_i hlt
      by_cases hxe : x < tgt s
      · exact ⟨(s, tgt s), by simp, hsx, hxe⟩
      · push_neg at hxe
        obtain ⟨c, hc, hcx⟩ := ih (back (tgt s)) x (le_trans (hback _) hxe) hx
        exact ⟨c, by simp [hc], hcx⟩
    · exact ⟨(s, L), by simp, hsx, hx⟩

/-- Consecutive chunks never leave a gap: the next start is at or before
the previous end. -/
theorem engineAux_no_gaps (L : Nat) (tgt back : Nat → Nat)
    (hback : ∀ t, back t ≤ t) :
    ∀ fuel s, (engineAux L tgt back fuel s).Chain' (fun c c' => c'.1 ≤ c.2) := by
  intro fuel
  induction fuel with
  | zero => intro s; simp [engineAux]
  | succ f ih =>
    intro s
    simp only [engineAux]
    split
    · rename_i hlt
      obtain ⟨e, rest, hhead⟩ := engineAux_head L tgt back f (back (tgt s))
      rw [hhead]
      refine List.Chain'.cons ?_ (hhead ▸ ih (back (tgt s)))
      exact hback _
    · simp

/-- The final chunk always ends exactly at the page end. -/
theorem engineAux_last (L : Nat) (tgt back : Nat → Nat) :
    ∀ fuel s c, (engineAux L tgt back fuel s).getLast? = some c → c.2 = L := by
  intro fuel
  induction fuel with
  | zero =>
    intro s c hc
    simp only [engineAux, List.getLast?_singleton, Option.some_inj] at hc
    simp [← hc]
  | succ f ih =>
    intro s c hc
    simp only [engineAux] at hc
    split at hc
    · obtain ⟨e, rest, hh⟩ := engineAux_head L tgt back f (back (tgt s))
      rw [hh, List.getLast?_cons_cons] at hc
      exact ih (back (tgt s)) c (by rw [hh]; exact hc)
    · simp only [List.getLast?_singleton, Option.some_inj] at hc
      simp [← hc]

theorem charChunksAux_step (len size ov : Nat) :
    ∀ fuel s i (c c' : Nat × Nat),
      (engineAux len (fun t => t + size) (fun t => t - ov) fuel s)[i]? = some c →
      (engineAux len (fun t => t + size) (fun t => t - ov) fuel s)[i + 1]? = some c' →
      c.2 = c.1 + size ∧ c'.1 = c.1 + size - ov := by
  intro fuel
  induction fuel with
  | zero =>
    intro s i c c' hc hc'
    cases i with
    | zero => simp [engineAux] at hc'
    | succ j => simp [engineAux] at hc
  | succ f ih =>
    intro s i c c' hc hc'
    simp only [engineAux] at hc hc'
    split at hc
    · rename_i hlt
      rw [if_pos hlt] at hc'
      cases i with
      | zero =>
        simp only [List.getElem?_cons_zero, Option.some_inj] at hc
        simp only [List.getElem?_cons_succ] at hc'
        obtain ⟨e, rest, hh⟩ := engineAux_head len (fun t => t + size)
          (fun t => t - ov) f (s + size - ov)
        rw [hh] at hc'
        simp only [List.getElem?_cons_zero, Option.some_inj] at hc'
        subst hc
        subst hc'
        exact ⟨rfl, rfl⟩
      | succ j =>
        simp only [List.getElem?_cons_succ] at hc hc'
        exact ih (s + size - ov) j c c' hc hc'
    · rename_i hge
      rw [if_neg hge] at hc'
      cases i with
      | zero => simp at hc'
      | succ j => simp at hc

/-- C5: in `chars` split mode the chunks are fixed windows of
`chunk_size` characters: a body no longer than `chunk_size` yields
exactly one chunk spanning the whole body; each non-final chunk has
length exactly `chunk_size` and the next chunk's start advances by
`chunk_size - overlap`; the final chunk ends exactly at the page end
(truncated, never padded); and a 25-character body with `chunk_size=10`,
`overlap=2` yields exactly 3 chunks with body-relative starts `0, 8, 16`,
the last being 9 characters long. -/
theorem c5_chars_mode :
    (∀ len size ov, len ≤ size → charChunks len size ov = [(0, len)])
    ∧ (∀ len size ov i (c c' : Nat × Nat),
        (charChunks len size ov)[i]? = some c →
        (charChunks len size ov)[i + 1]? = some c' →
        c.2 = c.1 + size ∧ c'.1 = c.1 + size - ov)
    ∧ (∀ len size ov (c : Nat × Nat),
        (charChunks len size ov).getLast? = some c → c.2 = len)
    ∧ charChunks 25 10 2 = [(0, 10), (8, 18), (16, 25)]
    ∧ (charChunks 25 10 2).map (fun c => c.2 - c.1) = [10, 10, 9] := by
  refine ⟨?_, ?_, ?_, rfl, rfl⟩
  · intro len size ov hle
    cases len with
    | zero => rfl
    | succ m =>
      simp only [charChunks, engine, engineAux]
      rw [if_neg (by omega)]
  · intro len size ov i c c' hc hc'
    exact charChunksAux_step len size ov len 0 i c c' hc hc'
  · intro len size ov c hc
    exact engineAux_last len _ _ len 0 c hc

/-- Witness for `c5_chars_mode`: a 9-character body with `chunk_size=10`
yields one full-body chunk; in the 25/10/2 example chunk 1 is 10 long
with chunk 2 starting 8 later, and the final chunk ends at 25. -/
theorem c5_chars_mode_witness :
    charChunks 9 10 2 = [(0, 9)]
    ∧ ((8, 18) : Nat × Nat).2 = ((8, 18) : Nat × Nat).1 + 10
    ∧ ((16, 25) : Nat × Nat).1 = ((8, 18) : Nat × Nat).1 + 10 - 2
    ∧ ((16, 25) : Nat × Nat).2 = 25 := by
  refine ⟨c5_chars_mode.1 9 10 2 (by decide), ?_, ?_,
    c5_chars_mode.2.2.1 25 10 2 (16, 25) (by decide)⟩
  · exact (c5_chars_mode.2.1 25 10 2 1 (8, 18) (16, 25) (by decide) (by decide)).1
  · exact (c5_chars_mode.2.1 25 10 2 1 (8, 18) (16, 25) (by decide) (by decide)).2

theorem foldr_min_bounds {t L : Nat} (ht : t ≤ L) :
    ∀ l : List Nat, (∀ b ∈ l, t ≤ b ∧ b ≤ L) →
      t ≤ l.foldr min L ∧ l.foldr min L ≤ L := by
  intro l
  induction l with
  | nil => intro _; exact ⟨ht, le_rfl⟩
  | cons b bs ih =>
    intro h
    obtain ⟨hb, hbs⟩ := h b (by simp)
    obtain ⟨ih1, ih2⟩ := ih (fun x hx => h x (by simp [hx]))
    exact ⟨le_min hb ih1, le_trans (min_le_right _ _) ih2⟩

theorem foldr_max_le {t : Nat} :
    ∀ l : List Nat, (∀ b ∈ l, b ≤ t) → l.foldr max 0 ≤ t := by
  intro l
  induction l with
  | nil => intro _; exact Nat.zero_le t
  | cons b bs ih =>
    intro h
    exact max_le (h b (by simp)) (ih (fun x hx => h x (by simp [hx])))

theorem snapUp_bounds (bounds : List Nat) {t L : Nat} (ht : t ≤ L) :
    t ≤ snapUp bounds t L ∧ snapUp bounds t L ≤ L := by
  refine foldr_min_bounds ht _ ?_
  intro b hb
  have := List.of_mem_filter hb
  simp only [Bool.and_eq_true, decide_eq_true_eq] at this
  exact this

theorem snapDown_le (bounds : List Nat) (t : Nat) : snapDown bounds t ≤ t := by
  refine foldr_max_le _ ?_
  intro b hb
  have := List.of_mem_filter hb
  simpa using this

theorem paraSnapEnd_bounds (body : Text) {t L : Nat} (ht : t ≤ L) :
    t ≤ paraSnapEnd body t L ∧ paraSnapEnd body t L ≤ L := by
  rw [paraSnapEnd]
  split
  · exact snapUp_bounds _ ht
  · exact snapUp_bounds _ ht

theorem headSnapEnd_bounds (body : Text) {t L : Nat} (ht : t ≤ L) :
    t ≤ headSnapEnd body t L ∧ headSnapEnd body t L ≤ L := by
  rw [headSnapEnd]
  split
  · exact snapUp_bounds _ ht
  · exact paraSnapEnd_bounds body ht

theorem modeTgt_le (mode : SplitMode) (body : Text) (size L : Nat) :
    ∀ s, s ≤ L → s ≤ modeTgt mode body size L s := by
  intro s hs
  cases mode with
  | chars => exact Nat.le_add_right s size
  | paragraph =>
    have hmin : min (s + size) L ≤ L := min_le_right _ _
    have hsmin : s ≤ min (s + size) L := le_min (Nat.le_add_right s size) hs
    exact le_trans hsmin (paraSnapEnd_bounds body hmin).1
  | heading =>
    have hmin : min (s + size) L ≤ L := min_le_right _ _
    have hsmin : s ≤ min (s + size) L := le_min (Nat.le_add_right s size) hs
    exact le_trans hsmin (headSnapEnd_bounds body hmin).1

theorem modeBack_le (mode : SplitMode) (body : Text) (ov : Nat) :
    ∀ t, modeBack mode body ov t ≤ t := by
  intro t
  cases mode with
  | chars => exact Nat.sub_le t ov
  | paragraph => exact le_trans (snapDown_le _ _) (Nat.sub_le t ov)
  | heading => exact le_trans (snapDown_le _ _) (Nat.sub_le t ov)

theorem isChain_nil {lo hi : Nat} : isChain lo [] hi ↔ lo = hi := Iff.rfl

theorem isChain_cons {lo hi : Nat} {sp : PageSpan} {sps : List PageSpan} :
    isChain lo (sp :: sps) hi ↔
      sp.start = lo ∧ sp.start ≤ sp.stop ∧ isChain sp.stop sps hi := Iff.rfl

theorem buildPageSpansFrom_chain :
    ∀ (pages : List Page) (off : Nat),
      isChain off (buildPageSpansFrom off pages) (off + (encode pages).length) := by
  intro pages
  induction pages with
  | nil =>
    intro off
    rw [buildPageSpansFrom, isChain_nil]
    simp [encode, joinLines]
  | cons p ps ih =>
    intro off
    cases ps with
    | nil =>
      rw [buildPageSpansFrom, isChain_cons]
      refine ⟨rfl, Nat.le_add_right _ _, ?_⟩
      rw [isChain_nil, encode_single]
    | cons q qs =>
      rw [buildPageSpansFrom, isChain_cons]
      refine ⟨rfl, by exact Nat.le_add_right off ((encodePage p).length + 1), ?_⟩
      have hlen : (encode (p :: q :: qs)).length =
          (encodePage p).length + 1 + (encode (q :: qs)).length := by
        rw [encode_cons, List.length_append, List.length_cons]
        omega
      have harr : off + (encodePage p).length + 1 + (encode (q :: qs)).length
          = off + (encode (p :: q :: qs)).length := by
        rw [hlen]
        omega
      rw [← harr]
      exact ih (off + (encodePage p).length + 1)

theorem buildPageSpansFrom_pageNo :
    ∀ (pages : List Page) (off : Nat),
      (buildPageSpansFrom off pages).map PageSpan.page_no = pages.map Page.pageNo := by
  intro pages
  induction pages with
  | nil => intro off; rfl
  | cons p ps ih =>
    intro off
    cases ps with
    | nil => rfl
    | cons q qs =>
      simp only [buildPageSpansFrom, List.map_cons]
      rw [ih]
      simp

theorem buildPageSpansFrom_body_le :
    ∀ (pages : List Page) (off : Nat) (sp : PageSpan),
      sp ∈ buildPageSpansFrom off pages → bodyStart sp ≤ sp.stop := by
  intro pages
  induction pages with
  | nil => intro off sp h; simp [buildPageSpansFrom] at h
  | cons p ps ih =>
    intro off sp h
    cases ps with
    | nil =>
      simp only [buildPageSpansFrom, List.mem_singleton] at h
      subst h
      simp only [bodyStart, encodePage, List.length_append, List.length_cons]
      omega
    | cons q qs =>
      simp only [buildPageSpansFrom, List.mem_cons] at h
      rcases h with rfl | h'
      · simp only [bodyStart, encodePage, List.length_append, List.length_cons]
        omega
      · exact ih _ sp h'

theorem chunksFor_bounds (text : Text) (strat : ChunkStrategy) (sp : PageSpan)
    (hbs : bodyStart sp ≤ sp.stop) :
    ∀ c ∈ chunksFor text strat sp, bodyStart sp ≤ c.1 ∧ c.1 ≤ c.2 ∧ c.2 ≤ sp.stop := by
  intro c hc
  simp only [chunksFor, engine, List.mem_map] at hc
  obtain ⟨a, ha, rfl⟩ := hc
  have hb := engineAux_bounds (sp.stop - bodyStart sp) _ _
    (modeTgt_le strat.split_mode _ strat.chunk_size (sp.stop - bodyStart sp))
    (modeBack_le strat.split_mode _ strat.overlap)
    (sp.stop - bodyStart sp) 0 (Nat.zero_le _) a ha
  exact ⟨Nat.le_add_right _ _, by omega, by omega⟩

theorem chunksFor_covers (text : Text) (strat : ChunkStrategy) (sp : PageSpan)
    (hbs : bodyStart sp ≤ sp.stop) :
    ∀ x, bodyStart sp ≤ x → x < sp.stop →
      ∃ c ∈ chunksFor text strat sp, c.1 ≤ x ∧ x < c.2 := by
  intro x hx1 hx2
  have hcov := engineAux_covers (sp.stop - bodyStart sp)
    (modeTgt strat.split_mode ((text.drop (bodyStart sp)).take (sp.stop - bodyStart sp))
      strat.chunk_size (sp.stop - bodyStart sp))
    (modeBack strat.split_mode ((text.drop (bodyStart sp)).take (sp.stop - bodyStart sp))
      strat.overlap)
    (modeBack_le strat.split_mode _ strat.overlap)
    (sp.stop - bodyStart sp) 0 (x - bodyStart sp) (Nat.zero_le _) (by omega)
  obtain ⟨a, ha, ha1, ha2⟩ := hcov
  refine ⟨(bodyStart sp + a.1, bodyStart sp + a.2), ?_, by omega, by omega⟩
  simp only [chunksFor, engine, List.mem_map]
  exact ⟨a, ha, rfl⟩

theorem chunksFor_no_gaps (text : Text) (strat : ChunkStrategy) (sp : PageSpan) :
    (chunksFor text strat sp).Chain' (fun c c' => c'.1 ≤ c.2) := by
  simp only [chunksFor, engine]
  rw [List.chain'_map]
  exact List.Chain'.imp (fun a b h => Nat.add_le_add_left h _)
    (engineAux_no_gaps _ _ _ (modeBack_le strat.split_mode _ strat.overlap) _ 0)

/-- C2: for every derived session state — page spans built over the
encoded text of pages numbered `1..N`, chunks derived per page by any
strategy — the page spans are ordered by page number, mutually
contiguous, non-overlapping, and tile `[0, text.length)` exactly
(`isChain`); and within each page the chunk spans are fully contained in
that page's body range `[bodyStart, stop)`, cover every position of it,
and leave no gap between consecutive chunks (the next chunk starts at or
before the previous end; overlap only as produced by the overlap
rewind). -/
theorem c2_coverage_invariant (pages : List Page) (strat : ChunkStrategy) (N : Nat)
    (hnums : pages.map Page.pageNo = List.range' 1 N) :
    isChain 0 (build_page_spans pages) (encode pages).length
    ∧ (build_page_spans pages).map PageSpan.page_no = List.range' 1 N
    ∧ ∀ sp ∈ build_page_spans pages,
        (∀ c ∈ chunksFor (encode pages) strat sp,
          bodyStart sp ≤ c.1 ∧ c.1 ≤ c.2 ∧ c.2 ≤ sp.stop)
        ∧ (∀ x, bodyStart sp ≤ x → x < sp.stop →
            ∃ c ∈ chunksFor (encode pages) strat sp, c.1 ≤ x ∧ x < c.2)
        ∧ (chunksFor (encode pages) strat sp).Chain' (fun c c' => c'.1 ≤ c.2) := by
  refine ⟨?_, ?_, ?_⟩
  · have := buildPageSpansFrom_chain pages 0
    simpa [build_page_spans] using this
  · rw [build_page_spans, buildPageSpansFrom_pageNo, hnums]
  · intro sp hsp
    have hbs := buildPageSpansFrom_body_le pages 0 sp hsp
    exact ⟨chunksFor_bounds _ strat sp hbs, chunksFor_covers _ strat sp hbs,
      chunksFor_no_gaps _ strat sp⟩

/-- Witness for `c2_coverage_invariant`: the invariant at the concrete
two-page session of Example 1 with the default `chars` strategy. -/
theorem c2_coverage_invariant_witness :
    isChain 0 (build_page_spans [⟨1, "A".data⟩, ⟨2, "B".data⟩])
        (encode [⟨1, "A".data⟩, ⟨2, "B".data⟩]).length
    ∧ (build_page_spans [⟨1, "A".data⟩, ⟨2, "B".data⟩]).map PageSpan.page_no =
        List.range' 1 2
    ∧ ∀ sp ∈ build_page_spans [⟨1, "A".data⟩, ⟨2, "B".data⟩],
        (∀ c ∈ chunksFor (encode [⟨1, "A".data⟩, ⟨2, "B".data⟩])
            ⟨100, 0, .chars, false⟩ sp,
          bodyStart sp ≤ c.1 ∧ c.1 ≤ c.2 ∧ c.2 ≤ sp.stop)
        ∧ (∀ x, bodyStart sp ≤ x → x < sp.stop →
            ∃ c ∈ chunksFor (encode [⟨1, "A".data⟩, ⟨2, "B".data⟩])
              ⟨100, 0, .chars, false⟩ sp, c.1 ≤ x ∧ x < c.2)
        ∧ (chunksFor (encode [⟨1, "A".data⟩, ⟨2, "B".data⟩])
            ⟨100, 0, .chars, false⟩ sp).Chain' (fun c c' => c'.1 ≤ c.2) :=
  c2_coverage_invariant [⟨1, "A".data⟩, ⟨2, "B".data⟩] ⟨100, 0, .chars, false⟩ 2
    (by decide)

/-- C3: every successful mutation (text edit or strategy edit) increases
`session.version` by exactly one; a mutation whose supplied version
differs from the session's current version fails with `VersionConflict`
and the persisted session — its version included — is unchanged. -/
theorem c3_version_monotonicity :
    (∀ (s : Session) (v : Nat) (text : Text),
      (updateText s v text).map Session.version =
        (updateText s v text).map (fun _ => s.version + 1))
    ∧ (∀ (s : Session) (v : Nat) (strat : ChunkStrategy),
      (updateStrategy s v strat).map Session.version =
        (updateStrategy s v strat).map (fun _ => s.version + 1))
    ∧ (∀ (s : Session) (v : Nat) (text : Text), v ≠ s.version →
      updateText s v text = .error .versionConflict ∧ persistText s v text = s)
    ∧ (∀ (s : Session) (v : Nat) (strat : ChunkStrategy), v ≠ s.version →
      updateStrategy s v strat = .error .versionConflict ∧
        persistStrategy s v strat = s) := by
  refine ⟨?_, ?_, ?_, ?_⟩
  · intro s v text
    rw [updateText]
    split
    · rfl
    · cases decode text s.base_pages.length <;> rfl
  · intro s v strat
    rw [updateStrategy]
    split <;> rfl
  · intro s v text hv
    have h1 : updateText s v text = .error .versionConflict := by
      rw [updateText, if_pos hv]
    exact ⟨h1, by rw [persistText, h1]⟩
  · intro s v strat hv
    have h1 : updateStrategy s v strat = .error .versionConflict := by
      rw [updateStrategy, if_pos hv]
    exact ⟨h1, by rw [persistStrategy, h1]⟩

/-- Witness for `c3_version_monotonicity`: at the concrete example
session (version 1), a mutation carrying version 5 is rejected with
`VersionConflict` and persists nothing. -/
theorem c3_version_monotonicity_witness :
    (updateText sessionExample 5 "x".data = .error .versionConflict ∧
      persistText sessionExample 5 "x".data = sessionExample)
    ∧ (updateStrategy sessionExample 5 ⟨200, 10, .paragraph, true⟩ =
        .error .versionConflict ∧
      persistStrategy sessionExample 5 ⟨200, 10, .paragraph, true⟩ = sessionExample) :=
  ⟨c3_version_monotonicity.2.2.1 sessionExample 5 "x".data (by decide),
   c3_version_monotonicity.2.2.2 sessionExample 5 ⟨200, 10, .paragraph, true⟩
     (by decide)⟩

/-- C8: a strategy edit re-derives everything from the immutable
`base_pages`, not from the current edited pages: its result does not
depend on `current_pages` (or any other derived field) at all, and on
success the new `current_pages` is exactly the (possibly normalized)
`base_pages`, with text, page spans and chunks re-derived from it — any
in-flight text edits are discarded. -/
theorem c8_strategy_edit_from_base :
    (∀ (s₁ s₂ : Session) (v : Nat) (strat : ChunkStrategy),
      s₁.base_pages = s₂.base_pages → s₁.version = s₂.version →
      updateStrategy s₁ v strat = updateStrategy s₂ v strat)
    ∧ (∀ (s : Session) (v : Nat) (strat : ChunkStrategy),
      (updateStrategy s v strat).map Session.current_pages =
        (updateStrategy s v strat).map (fun _ => applyNormalize strat s.base_pages)
      ∧ (updateStrategy s v strat).map Session.current_text =
        (updateStrategy s v strat).map
          (fun _ => encode (applyNormalize strat s.base_pages))
      ∧ (updateStrategy s v strat).map Session.page_map =
        (updateStrategy s v strat).map
          (fun _ => build_page_spans (applyNormalize strat s.base_pages))
      ∧ (updateStrategy s v strat).map Session.chunks =
        (updateStrategy s v strat).map
          (fun _ => split (encode (applyNormalize strat s.base_pages))
            (build_page_spans (applyNormalize strat s.base_pages)) strat)) := by
  constructor
  · intro s₁ s₂ v strat hbase hver
    rw [updateStrategy, updateStrategy, hbase, hver]
    split
    · rfl
    · rw [rederive, rederive]
      simp [hbase, hver]
  · intro s v strat
    rw [updateStrategy]
    split
    · exact ⟨rfl, rfl, rfl, rfl⟩
    · exact ⟨rfl, rfl, rfl, rfl⟩

/-- Witness for `c8_strategy_edit_from_base`: a session with an in-flight
text edit (`current_pages` differs from `base_pages`) yields the same
strategy-edit result as the pristine session. -/
theorem c8_strategy_edit_from_base_witness :
    updateStrategy sessionExample 1 ⟨200, 10, .paragraph, true⟩ =
      updateStrategy { sessionExample with
        current_pages := [⟨1, "X".data⟩, ⟨2, "B".data⟩],
        current_text := encode [⟨1, "X".data⟩, ⟨2, "B".data⟩] } 1
        ⟨200, 10, .paragraph, true⟩ :=
  c8_strategy_edit_from_base.1 sessionExample
    { sessionExample with
      current_pages := [⟨1, "X".data⟩, ⟨2, "B".data⟩],
      current_text := encode [⟨1, "X".data⟩, ⟨2, "B".data⟩] }
    1 ⟨200, 10, .paragraph, true⟩ rfl rfl

/-- C6: `ensure_compatible` always succeeds for an index name that does
not yet exist; for an existing index it succeeds iff the recorded
dimensionality equals the model dimension, failing with
`DimensionMismatch` otherwise, in which case no index write happens
(`writeChunks` fails and returns no store). -/
theorem c6_ensure_compatible :
    (∀ (st : IndexStore) (name : String) (dim : Nat),
      lookupIndex st name = none → ensure_compatible st name dim = .ok ())
    ∧ (∀ (st : IndexStore) (name : String) (dim d : Nat),
      lookupIndex st name = some d →
        (ensure_compatible st name dim = .ok () ↔ d = dim))
    ∧ (∀ (st : IndexStore) (name : String) (dim d : Nat)
        (records : List (String × Text)),
      lookupIndex st name = some d → d ≠ dim →
        ensure_compatible st name dim = .error .dimensionMismatch ∧
        writeChunks st name dim records = .error .dimensionMismatch) := by
  refine ⟨?_, ?_, ?_⟩
  · intro st name dim h
    rw [ensure_compatible, h]
  · intro st name dim d h
    simp only [ensure_compatible, h]
    constructor
    · intro hok
      by_contra hne
      rw [if_neg hne] at hok
      exact absurd hok (by simp)
    · intro hd
      rw [if_pos hd]
  · intro st name dim d records h hne
    have h1 : ensure_compatible st name dim = .error .dimensionMismatch := by
      simp only [ensure_compatible, h]
      rw [if_neg hne]
    exact ⟨h1, by rw [writeChunks, h1]⟩

/-- Witness for `c6_ensure_compatible`: a store recording index `idx`
with dimension 1536 — a fresh name succeeds, the matching dimension
succeeds, and dimension 3072 is rejected with no write. -/
theorem c6_ensure_compatible_witness :
    ensure_compatible [("idx", 1536)] "other" 3072 = .ok ()
    ∧ (ensure_compatible [("idx", 1536)] "idx" 1536 = .ok () ↔ 1536 = 1536)
    ∧ (ensure_compatible [("idx", 1536)] "idx" 3072 = .error .dimensionMismatch ∧
      writeChunks [("idx", 1536)] "idx" 3072 [] = .error .dimensionMismatch) :=
  ⟨c6_ensure_compatible.1 [("idx", 1536)] "other" 3072 (by decide),
   c6_ensure_compatible.2.1 [("idx", 1536)] "idx" 1536 1536 (by decide),
   c6_ensure_compatible.2.2 [("idx", 1536)] "idx" 3072 1536 [] (by decide) (by decide)⟩

/-- C7: `hash_chunk` is a deterministic function of exactly its three
inputs — it is by definition the (pure, implemented) SHA-256 digest of
the canonical string formed from `doc_id`, `chunk_id` and `text` joined
by the fixed delimiters of `doc_id:chunk:{chunk_id}:{text}`, so equal
inputs always yield the identical digest; there is no other input
(state, time, addresses) it could depend on. -/
theorem c7_hash_chunk_deterministic :
    (∀ doc_id chunk_id text : Text,
      hash_chunk doc_id chunk_id text =
        sha256 (strBytes (doc_id ++ ":chunk:".data ++ chunk_id ++ ":".data ++ text)))
    ∧ (∀ d d' c c' t t' : Text, d = d' → c = c' → t = t' →
      hash_chunk d c t = hash_chunk d' c' t') := by
  refine ⟨fun _ _ _ => rfl, ?_⟩
  intro d d' c c' t t' hd hc ht
  rw [hd, hc, ht]

/-- Witness for `c7_hash_chunk_deterministic`: the digest of a concrete
chunk equals itself on a repeated call with the same three inputs. -/
theorem c7_hash_chunk_deterministic_witness :
    hash_chunk "doc1".data "P001-C000".data "Hello".data =
      hash_chunk "doc1".data "P001-C000".data "Hello".data :=
  c7_hash_chunk_deterministic.2 "doc1".data "doc1".data "P001-C000".data
    "P001-C000".data "Hello".data "Hello".data rfl rfl rfl

theorem lineStartsAux_succ :
    ∀ (t : Text) (b : Nat),
      lineStartsAux (b + 1) t = (lineStartsAux b t).map (fun x => x + 1) := by
  intro t
  induction t with
  | nil => intro b; rfl
  | cons c cs ih =>
    intro b
    by_cases hc : c = '\n'
    · simp only [lineStartsAux, if_pos hc, ih (b + 1), List.map_cons]
    · simp only [lineStartsAux, if_neg hc, ih (b + 1)]

theorem lineStartsAux_length :
    ∀ (t : Text) (b : Nat), (lineStartsAux b t).length = t.count '\n' := by
  intro t
  induction t with
  | nil => intro b; rfl
  | cons c cs ih =>
    intro b
    by_cases hc : c = '\n'
    · subst hc
      simp [lineStartsAux, ih, List.count_cons]
    · simp only [lineStartsAux, if_neg hc, ih]
      simp [List.count_cons, Ne.symm hc]

theorem lineStartsAux_pos :
    ∀ (t : Text) (b : Nat), ∀ x ∈ lineStartsAux b t, b < x := by
  intro t
  induction t with
  | nil => intro b x hx; simp [lineStartsAux] at hx
  | cons c cs ih =>
    intro b x hx
    simp only [lineStartsAux] at hx
    split at hx
    · rcases List.mem_cons.1 hx with rfl | hx'
      · omega
      · have := ih (b + 1) x hx'
        omega
    · have := ih (b + 1) x hx
      omega

theorem lineStartsAux_sorted :
    ∀ (t : Text) (b : Nat), (lineStartsAux b t).Sorted (· < ·) := by
  intro t
  induction t with
  | nil => intro b; simp [lineStartsAux]
  | cons c cs ih =>
    intro b
    simp only [lineStartsAux]
    split
    · rw [List.sorted_cons]
      exact ⟨fun x hx => lineStartsAux_pos cs (b + 1) x hx, ih (b + 1)⟩
    · exact ih (b + 1)

theorem buildLineStarts_sorted (t : Text) : (buildLineStarts t).Sorted (· < ·) := by
  rw [buildLineStarts, List.sorted_cons]
  exact ⟨fun x hx => lineStartsAux_pos t 0 x hx, lineStartsAux_sorted t 0⟩

theorem getD_map_succ (l : List Nat) (i : Nat) (h : i < l.length) :
    (l.map (fun x => x + 1)).getD i 0 = l.getD i 0 + 1 := by
  rw [List.getD_eq_getElem _ _ (by simpa using h), List.getD_eq_getElem _ _ h,
    List.getElem_map]

theorem sorted_getD_lt {l : List Nat} (hs : l.Sorted (· < ·)) {i j : Nat}
    (hij : i < j) (hj : j < l.length) : l.getD i 0 < l.getD j 0 := by
  rw [List.getD_eq_getElem _ _ (lt_trans hij hj), List.getD_eq_getElem _ _ hj]
  exact List.pairwise_iff_get.1 hs ⟨i, lt_trans hij hj⟩ ⟨j, hj⟩ hij

/-- Binary-search correctness: under the invariants of
`offsetToPosition`, `searchLow` returns the greatest index in
`[low, high]` whose line start is at most `offset`. -/
theorem searchLow_spec (ls : List Nat) (offset : Nat) :
    ∀ (m low high : Nat), high - low ≤ m → high < ls.length → low ≤ high →
      ls.getD low 0 ≤ offset →
      (∀ j, j < ls.length → high < j → offset < ls.getD j 0) →
      (∀ i j, i < j → j < ls.length → ls.getD i 0 < ls.getD j 0) →
      low ≤ searchLow ls offset low high ∧ searchLow ls offset low high ≤ high ∧
      ls.getD (searchLow ls offset low high) 0 ≤ offset ∧
      (∀ j, j < ls.length → searchLow ls offset low high < j →
        offset < ls.getD j 0) := by
  intro m
  induction m with
  | zero =>
    intro low high hm hlen hle hlow hhigh hmono
    have heq : low = high := by omega
    rw [searchLow, if_neg (by omega)]
    exact ⟨le_rfl, hle, hlow, fun j hj hlj => hhigh j hj (by omega)⟩
  | succ k ih =>
    intro low high hm hlen hle hlow hhigh hmono
    by_cases hlh : low < high
    · rw [searchLow, if_pos hlh]
      have hmid1 : low < (low + high + 1) / 2 := by omega
      have hmid2 : (low + high + 1) / 2 ≤ high := by omega
      by_cases hval : ls.getD ((low + high + 1) / 2) 0 ≤ offset
      · rw [if_pos hval]
        have hres := ih ((low + high + 1) / 2) high (by omega) hlen hmid2 hval
          hhigh hmono
        exact ⟨by omega, hres.2.1, hres.2.2.1, hres.2.2.2⟩
      · rw [if_neg hval]
        push_neg at hval
        have hhigh' : ∀ j, j < ls.length → (low + high + 1) / 2 - 1 < j →
            offset < ls.getD j 0 := by
          intro j hj hlj
          rcases Nat.lt_or_ge j ((low + high + 1) / 2 + 1) with hj2 | hj2
          · have : j = (low + high + 1) / 2 := by omega
            rw [this]
            exact hval
          · exact lt_trans hval (hmono _ j (by omega) hj)
        have hres := ih low ((low + high + 1) / 2 - 1) (by omega) (by omega)
          (by omega) hlow hhigh' hmono
        exact ⟨hres.1, by omega, hres.2.2.1, hres.2.2.2⟩
    · rw [searchLow, if_neg hlh]
      exact ⟨le_rfl, hle, hlow, fun j hj hlj => hhigh j hj (by omega)⟩

theorem takeWhile_append_of_fail {p : Char → Bool} :
    ∀ (B l : List Char), (∃ b ∈ B, p b = false) →
      List.takeWhile p (B ++ l) = List.takeWhile p B := by
  intro B
  induction B with
  | nil => intro l h; simp at h
  | cons b bs ih =>
    intro l h
    by_cases hb : p b
    · simp only [List.cons_append, List.takeWhile_cons, hb]
      obtain ⟨x, hx, hpx⟩ := h
      rcases List.mem_cons.1 hx with rfl | hx'
      · rw [hb] at hpx; cases hpx
      · rw [ih l ⟨x, hx', hpx⟩]
    · simp only [List.cons_append, List.takeWhile_cons]
      rw [Bool.not_eq_true] at hb
      simp [hb]

theorem takeWhile_append_of_all {p : Char → Bool} :
    ∀ (B l : List Char), (∀ b ∈ B, p b = true) →
      List.takeWhile p (B ++ l) = B ++ List.takeWhile p l := by
  intro B
  induction B with
  | nil => intro l _; rfl
  | cons b bs ih =>
    intro l h
    simp only [List.cons_append, List.takeWhile_cons, h b (by simp)]
    rw [ih l (fun x hx => h x (by simp [hx]))]
    simp

/-- The naive facts the binary search must agree with: the newline count
of the prefix indexes `buildLineStarts` at the current line's start. -/
theorem buildLineStarts_prefix (text : Text) :
    ∀ offset, offset ≤ text.length →
      (text.take offset).count '\n' < (buildLineStarts text).length
      ∧ tailRun text offset ≤ offset
      ∧ (buildLineStarts text).getD ((text.take offset).count '\n') 0
          = offset - tailRun text offset
      ∧ ∀ j, j < (buildLineStarts text).length →
          (text.take offset).count '\n' < j →
          offset < (buildLineStarts text).getD j 0 := by
  induction text with
  | nil =>
    intro offset hoff
    have h0 : offset = 0 := by simpa using hoff
    subst h0
    refine ⟨by simp [buildLineStarts, lineStartsAux], by simp [tailRun], rfl, ?_⟩
    intro j hj hj'
    simp [buildLineStarts, lineStartsAux] at hj
    omega
  | cons c cs ih =>
    intro offset hoff
    cases offset with
    | zero =>
      refine ⟨by simp [buildLineStarts], by simp [tailRun], rfl, ?_⟩
      intro j hj hj'
      rw [buildLineStarts] at hj ⊢
      cases j with
      | zero => omega
      | succ i =>
        simp only [List.getD_cons_succ]
        simp only [List.length_cons] at hj
        have hi : i < (lineStartsAux 0 (c :: cs)).length := by omega
        have hmem : (lineStartsAux 0 (c :: cs)).getD i 0 ∈ lineStartsAux 0 (c :: cs) := by
          rw [List.getD_eq_getElem _ _ hi]
          exact List.getElem_mem _
        exact lineStartsAux_pos (c :: cs) 0 _ hmem
    | succ o =>
      have ho : o ≤ cs.length := by simpa using hoff
      obtain ⟨ihlen, ihrun, ihval, ihgt⟩ := ih o ho
      by_cases hc : c = '\n'
      · subst hc
        have hbls : buildLineStarts ('\n' :: cs) =
            0 :: (buildLineStarts cs).map (fun x => x + 1) := by
          rw [buildLineStarts, buildLineStarts, lineStartsAux, if_pos rfl,
            lineStartsAux_succ cs 0, List.map_cons]
        have hcount : (('\n' :: cs).take (o + 1)).count '\n'
            = (cs.take o).count '\n' + 1 := by
          rw [List.take_succ_cons, List.count_cons]
          simp
        have hrun : tailRun ('\n' :: cs) (o + 1) = tailRun cs o := by
          rw [tailRun, tailRun, List.take_succ_cons, List.reverse_cons]
          by_cases hmem : '\n' ∈ (cs.take o).reverse
          · rw [takeWhile_append_of_fail _ _ ⟨'\n', hmem, by simp⟩]
          · have hall : ∀ b ∈ (cs.take o).reverse,
                (fun c : Char => decide (c ≠ '\n')) b = true := by
              intro b hb
              simp only [ne_eq, decide_eq_true_eq]
              intro hb'
              exact hmem (hb' ▸ hb)
            have htw : List.takeWhile (fun c : Char => decide (c ≠ '\n'))
                (cs.take o).reverse = (cs.take o).reverse := by
              have := takeWhile_append_of_all (cs.take o).reverse [] hall
              simpa using this
            rw [takeWhile_append_of_all _ _ hall, htw]
            simp
        refine ⟨?_, ?_, ?_, ?_⟩
        · rw [hcount, hbls]
          simp only [List.length_cons, List.length_map]
          omega
        · rw [hrun]
          omega
        · rw [hcount, hbls, hrun]
          simp only [List.getD_cons_succ]
          rw [getD_map_succ _ _ (by omega), ihval]
          omega
        · intro j hj hj'
          rw [hcount] at hj'
          rw [hbls] at hj ⊢
          cases j with
          | zero => omega
          | succ i =>
            simp only [List.length_cons, List.length_map] at hj
            simp only [List.getD_cons_succ]
            rw [getD_map_succ _ _ (by omega)]
            have := ihgt i (by omega) (by omega)
            omega
      · have hbls : buildLineStarts (c :: cs) =
            0 :: (lineStartsAux 0 cs).map (fun x => x + 1) := by
          rw [buildLineStarts, lineStartsAux, if_neg hc, lineStartsAux_succ cs 0]
        have hlen_eq : (buildLineStarts (c :: cs)).length =
            (buildLineStarts cs).length := by
          rw [hbls, buildLineStarts]
          simp
        have hgetD : ∀ j, 1 ≤ j → j < (buildLineStarts cs).length →
            (buildLineStarts (c :: cs)).getD j 0 =
              (buildLineStarts cs).getD j 0 + 1 := by
          intro j hj1 hj2
          rw [hbls, buildLineStarts]
          cases j with
          | zero => omega
          | succ i =>
            simp only [List.getD_cons_succ]
            rw [getD_map_succ]
            rw [buildLineStarts] at hj2
            simp only [List.length_cons] at hj2
            omega
        have hcount : ((c :: cs).take (o + 1)).count '\n'
            = (cs.take o).count '\n' := by
          have hbeq : (c == '\n') = false := by
            simpa using hc
          rw [List.take_succ_cons, List.count_cons, hbeq]
          simp
        by_cases hzero : (cs.take o).count '\n' = 0
        · have hmem : '\n' ∉ (cs.take o) := by
            intro hmem
            rw [List.count_eq_zero] at hzero
            exact hzero hmem
          have hallpass : ∀ b ∈ (cs.take o).reverse,
              (fun x : Char => decide (x ≠ '\n')) b = true := by
            intro b hb
            simp only [ne_eq, decide_eq_true_eq]
            intro hb'
            exact hmem (by rw [← hb']; exact (List.mem_reverse).1 hb)
          have hrun : tailRun (c :: cs) (o + 1) = o + 1 := by
            rw [tailRun, List.take_succ_cons, List.reverse_cons]
            rw [takeWhile_append_of_all _ _ hallpass]
            have hone : List.takeWhile (fun x : Char => decide (x ≠ '\n')) [c]
                = [c] := by
              simp [List.takeWhile_cons, hc]
            rw [hone, List.length_append, List.length_reverse, List.length_take,
              List.length_cons, List.length_nil]
            omega
          refine ⟨?_, ?_, ?_, ?_⟩
          · rw [hcount, hlen_eq]
            omega
          · omega
          · rw [hcount, hzero, hrun, hbls]
            simp
          · intro j hj hj'
            rw [hcount, hzero] at hj'
            rw [hlen_eq] at hj
            rw [hgetD j (by omega) hj]
            have := ihgt j hj (by omega)
            omega
        · have hmem : '\n' ∈ (cs.take o).reverse := by
            rw [List.mem_reverse]
            by_contra hmem
            rw [← List.count_eq_zero] at hmem
            exact hzero hmem
          have hrun : tailRun (c :: cs) (o + 1) = tailRun cs o := by
            rw [tailRun, tailRun, List.take_succ_cons, List.reverse_cons]
            rw [takeWhile_append_of_fail _ _ ⟨'\n', hmem, by simp⟩]
          refine ⟨?_, ?_, ?_, ?_⟩
          · rw [hcount, hlen_eq]
            omega
          · rw [hrun]
            omega
          · rw [hcount, hrun, hgetD _ (by omega) (by omega), ihval]
            omega
          · intro j hj hj'
            rw [hcount] at hj'
            rw [hlen_eq] at hj
            rw [hgetD j (by omega) hj]
            have := ihgt j hj (by omega)
            omega

/-- C9: for every text and offset with `0 ≤ offset ≤ length`,
`offsetToPosition` over `buildLineStarts` returns the line number
`1 + (number of newlines among the first offset characters)` and the
column `offset - (start offset of that line) + 1` — the binary search
agrees with the naive linear-scan definition of line and column. -/
theorem c9_offsetToPosition_correct (text : Text) (offset : Nat)
    (hoff : offset ≤ text.length) :
    offsetToPosition offset (buildLineStarts text) =
      (1 + (text.take offset).count '\n',
        offset - naiveLineStart text offset + 1) := by
  obtain ⟨hlen, hrun, hval, hgt⟩ := buildLineStarts_prefix text offset hoff
  have hmono : ∀ i j, i < j → j < (buildLineStarts text).length →
      (buildLineStarts text).getD i 0 < (buildLineStarts text).getD j 0 :=
    fun i j hij hj => sorted_getD_lt (buildLineStarts_sorted text) hij hj
  have hlen1 : 1 ≤ (buildLineStarts text).length := by
    rw [buildLineStarts]
    simp
  have h0 : (buildLineStarts text).getD 0 0 = 0 := by
    rw [buildLineStarts]
    rfl
  obtain ⟨h1, h2, h3, h4⟩ := searchLow_spec (buildLineStarts text) offset
    ((buildLineStarts text).length - 1) 0 ((buildLineStarts text).length - 1)
    le_rfl (by omega) (Nat.zero_le _) (by rw [h0]; exact Nat.zero_le _)
    (fun j hj hlj => by omega) hmono
  have hrn : searchLow (buildLineStarts text) offset 0
      ((buildLineStarts text).length - 1) = (text.take offset).count '\n' := by
    by_contra hne
    rcases Nat.lt_or_ge (searchLow (buildLineStarts text) offset 0
      ((buildLineStarts text).length - 1)) ((text.take offset).count '\n')
      with hlt | hge
    · have := h4 ((text.take offset).count '\n') (by omega) hlt
      omega
    · have := hgt (searchLow (buildLineStarts text) offset 0
        ((buildLineStarts text).length - 1)) (by omega) (by omega)
      omega
  have hnls : naiveLineStart text offset = offset - tailRun text offset := rfl
  simp only [offsetToPosition]
  rw [hrn, hval, hnls]
  simp only [Prod.mk.injEq]
  exact ⟨by omega, trivial⟩

/-- Witness for `c9_offsetToPosition_correct`: the position of offset 4
in the concrete text `"ab\ncd"` (line 2, column 2). -/
theorem c9_offsetToPosition_correct_witness :
    offsetToPosition 4 (buildLineStarts "ab\ncd".data) = (2, 2) := by
  rw [c9_offsetToPosition_correct "ab\ncd".data 4 (by decide)]
  decide

/-- C10: when the index name contains `"__"`, `extractModelFromIndex`
returns element 1 of the split on `"__"` with every underscore replaced
by a hyphen (so the result never contains an underscore); without
`"__"` the name is returned unchanged; consequently a model name whose
sanitized characters were not hyphens — such as
`openai/text-embedding-3-large` — is not recovered exactly from its
resolved index name (the `/` comes back as `-`). -/
theorem c10_extractModelFromIndex :
    (∀ s : Text, containsDD s = true →
      extractModelFromIndex s = ((splitDD s).getD 1 []).map underscoreToHyphen
      ∧ '_' ∉ extractModelFromIndex s)
    ∧ (∀ s : Text, containsDD s = false → extractModelFromIndex s = s)
    ∧ extractModelFromIndex
        (resolve "chunksmith-chunks".data "openai/text-embedding-3-large".data)
        ≠ "openai/text-embedding-3-large".data
    ∧ extractModelFromIndex
        (resolve "chunksmith-chunks".data "openai/text-embedding-3-large".data)
        = "openai-text-embedding-3-large".data := by
  refine ⟨?_, ?_, by decide, by decide⟩
  · intro s h
    have hx : extractModelFromIndex s =
        ((splitDD s).getD 1 []).map underscoreToHyphen := by
      rw [extractModelFromIndex, if_pos h]
    refine ⟨hx, ?_⟩
    rw [hx]
    intro hmem
    obtain ⟨c, _, hc⟩ := List.mem_map.1 hmem
    rw [underscoreToHyphen] at hc
    split at hc
    · exact absurd hc (by decide)
    · rename_i hne
      exact hne hc
  · intro s h
    rw [extractModelFromIndex, if_neg (by rw [h]; exact Bool.false_ne_true)]

/-- Witness for `c10_extractModelFromIndex`: a concrete index name with
`"__"` extracts to its hyphenated model key, and a name without `"__"`
is returned unchanged. -/
theorem c10_extractModelFromIndex_witness :
    (extractModelFromIndex "chunks__text_embedding_3_large".data =
      ((splitDD "chunks__text_embedding_3_large".data).getD 1 []).map
        underscoreToHyphen
      ∧ '_' ∉ extractModelFromIndex "chunks__text_embedding_3_large".data)
    ∧ extractModelFromIndex "plain-index".data = "plain-index".data :=
  ⟨c10_extractModelFromIndex.1 "chunks__text_embedding_3_large".data (by decide),
   c10_extractModelFromIndex.2.1 "plain-index".data (by decide)⟩

end ChunkSmith
